import Mathlib

/-!
Verification of the pymelos dependency-graph core against its specification.

The definitions below are a shallow embedding of `src/pymelos/workspace/graph.py`,
`src/pymelos/workspace/workspace.py`, `src/pymelos/workspace/package.py`,
`src/pymelos/errors.py` and `src/pymelos/execution/results.py`.

Python dictionaries are embedded as association lists (`List (String × Package)`,
insertion ordered, with a `Nodup` hypothesis on the keys where uniqueness matters);
Python sets are embedded as duplicate-free lists, since every property stated here
is insensitive to iteration order. Python generators are embedded as functions
returning `Except` of a fully materialised list: a generator that raises before its
first `yield` becomes the `.error` case, so "fails before yielding any element"
is the statement that the embedded function returns `.error`.

The repository delegates cycle detection and ready-set extraction to the Python
standard library `graphlib.TopologicalSorter` (external to this repository).
That collaborator is embedded at the level of its documented contract:
`prepare()` raises `CycleError` carrying a closed walk (first and last node equal,
each node an immediate predecessor of the next) exactly when the graph has a
cycle, and each `get_ready()` round returns precisely the not-yet-returned nodes
all of whose predecessors have been marked done.
-/

/-- Embeds `pymelos.workspace.package.Package` (a frozen dataclass).
Fields irrelevant to the graph (filesystem paths, scripts) are kept as plain
strings; `frozenset` fields become duplicate-free lists. -/
structure Package where
  name : String
  path : String := ""
  version : String := "1.0.0"
  description : Option String := none
  dependencies : List String := []
  dev_dependencies : List String := []
  workspace_dependencies : List String := []
deriving DecidableEq, Repr

/-- Embeds `pymelos.errors`: the error classes raised by the embedded fragment.
`CyclicDependencyError` stores the offending cycle; `PackageNotFoundError`
stores the requested name and the available package names. -/
inductive PyMelosError where
  | cyclicDependency (cycle : List String)
  | packageNotFound (name : String) (available : List String)
deriving DecidableEq, Repr

/-- Embeds the name normalisation used in `DependencyGraph.__post_init__`:
`dep.lower().replace("-", "_")` (case folded, hyphen and underscore
identified). Both `str.lower` and the single-character `str.replace` act
character by character, so the embedding maps each character: lower-case it,
then turn a hyphen into an underscore (`'-'` is unaffected by lower-casing). -/
def normalize_dep_name (s : String) : String :=
  ⟨s.data.map (fun c => if c.toLower = '-' then '_' else c.toLower)⟩

/-- Embeds the inner resolution loop of `DependencyGraph.__post_init__`:
scan the snapshot's package names in order and return the first one whose
normalised form equals the normalised dependency name (the Python loop
`break`s at the first match); `none` when the dependency does not resolve. -/
def resolve_workspace_dep (pkg_names : List String) (dep : String) : Option String :=
  pkg_names.find? (fun pkg_name => normalize_dep_name pkg_name == normalize_dep_name dep)

/-- Embeds `pymelos.workspace.graph.DependencyGraph`: a fixed snapshot of
packages keyed by name (a Python dict, here an insertion-ordered
association list). The edge maps `_edges` / `_reverse_edges` built by
`__post_init__` are recovered by the functions below. -/
structure DependencyGraph where
  packages : List (String × Package)
deriving DecidableEq, Repr

namespace DependencyGraph

/-- The snapshot's package names, in insertion order (`self.packages` keys). -/
def package_names (g : DependencyGraph) : List String :=
  g.packages.map Prod.fst

/-- Python dict lookup `self.packages.get(name)`. -/
def find_package (g : DependencyGraph) (name : String) : Option Package :=
  (g.packages.find? (fun pr => pr.1 == name)).map Prod.snd

/-- Embeds `self._edges[name]` as built by `__post_init__`: for each declared
workspace dependency of the package stored under `name`, the first snapshot
package name it resolves to; unresolved dependencies are dropped. The Python
container is a set, so duplicates are removed. For a `name` absent from the
snapshot this is empty (`self._edges.get(name, set())`). -/
def edge_targets (g : DependencyGraph) (name : String) : List String :=
  match g.find_package name with
  | none => []
  | some pkg => (pkg.workspace_dependencies.filterMap (resolve_workspace_dep g.package_names)).dedup

/-- Embeds `self._reverse_edges[name]` as built by `__post_init__`: the
snapshot packages whose edge set contains `name`. For a `name` absent from
the snapshot this is empty. -/
def reverse_edge_targets (g : DependencyGraph) (name : String) : List String :=
  g.package_names.filter (fun n => (g.edge_targets n).contains name)

/-- Embeds the comprehension `[self.packages[d] for d in names if d in self.packages]`
used by all query methods to turn a collection of names into packages. -/
def lookup_packages (g : DependencyGraph) (names : List String) : List Package :=
  names.filterMap (fun d => g.find_package d)

/-- Embeds `DependencyGraph.get_dependencies`. -/
def get_dependencies (g : DependencyGraph) (name : String) : List Package :=
  g.lookup_packages (g.edge_targets name)

/-- Embeds `DependencyGraph.get_dependents`. -/
def get_dependents (g : DependencyGraph) (name : String) : List Package :=
  g.lookup_packages (g.reverse_edge_targets name)

end DependencyGraph

/-- Embeds the `while stack:` loop shared by `get_transitive_dependencies` and
`get_transitive_dependents` (iterative frontier traversal): pop a name, and if
it is new, record it and push its neighbours. The loop always terminates; the
explicit `fuel` argument makes the recursion structural, and `closure_fuel`
below supplies a bound large enough that the fuel never runs out. -/
def closure_loop (step : String → List String) : Nat → List String → List String → List String
  | 0, result, _ => result
  | _ + 1, result, [] => result
  | fuel + 1, result, dep :: stack =>
    if dep ∈ result then closure_loop step fuel result stack
    else closure_loop step fuel (result ++ [dep]) (step dep ++ stack)

/-- Fuel bound for `closure_loop`: every iteration pops one pending name, and a
name can be pushed only when first recorded, so the pending stack plus one
budget of `1 + |step x|` per universe element bounds the iteration count. -/
def closure_fuel (step : String → List String) (univ stack : List String) : Nat :=
  stack.length + (univ.map (fun x => 1 + (step x).length)).sum

namespace DependencyGraph

/-- Embeds `DependencyGraph.get_transitive_dependencies`: frontier traversal of
the forward edges starting from the direct dependencies of `name`. -/
def get_transitive_dependencies (g : DependencyGraph) (name : String) : List Package :=
  g.lookup_packages
    (closure_loop g.edge_targets
      (closure_fuel g.edge_targets g.package_names (g.edge_targets name))
      [] (g.edge_targets name))

/-- Embeds `DependencyGraph.get_transitive_dependents`: frontier traversal of
the reverse edges starting from the direct dependents of `name`. -/
def get_transitive_dependents (g : DependencyGraph) (name : String) : List Package :=
  g.lookup_packages
    (closure_loop g.reverse_edge_targets
      (closure_fuel g.reverse_edge_targets g.package_names (g.reverse_edge_targets name))
      [] (g.reverse_edge_targets name))

/-- The local `affected` set of `DependencyGraph.get_affected_packages`: the
changed names unioned with the names of the transitive dependents of every
changed name present in the snapshot (`if name in self.packages`). -/
def affected_names (g : DependencyGraph) (changed : List String) : List String :=
  (changed ++
    (changed.filter (fun name => g.package_names.contains name)).flatMap
      (fun name => (g.get_transitive_dependents name).map Package.name)).dedup

/-- Embeds `DependencyGraph.get_affected_packages`: the `affected` set
resolved against the snapshot (`[self.packages[n] for n in affected if n in
self.packages]`). -/
def get_affected_packages (g : DependencyGraph) (changed : List String) : List Package :=
  g.lookup_packages (g.affected_names changed)

end DependencyGraph

/-- One `get_ready()` round of `graphlib.TopologicalSorter` after every name in
`emitted` has been passed out and marked done: exactly the not-yet-returned
snapshot names all of whose predecessors (dependency edge targets) are done.
This is the documented contract of the standard-library sorter the repository
drives in `topological_order` / `parallel_batches`. -/
def kahn_ready (g : DependencyGraph) (emitted : List String) : List String :=
  g.package_names.filter
    (fun n => !emitted.contains n && (g.edge_targets n).all (fun d => emitted.contains d))

/-- The `while sorter.is_active():` loop of `topological_order` and
`parallel_batches`: repeatedly take the ready set, yield it, and mark it done;
stop when no node is ready. Fuel makes the recursion structural; each round
with a nonempty ready set marks at least one new name done, so
`package_names.length + 1` rounds always suffice. -/
def kahn_batches_aux (g : DependencyGraph) : Nat → List String → List (List String)
  | 0, _ => []
  | fuel + 1, emitted =>
    let ready := kahn_ready g emitted
    if ready.isEmpty then []
    else ready :: kahn_batches_aux g fuel (emitted ++ ready)

/-- The full batch sequence produced by the sorter loop from a fresh state. -/
def kahn_batches (g : DependencyGraph) : List (List String) :=
  kahn_batches_aux g (g.package_names.length + 1) []

/-- All walks of at most `n` edges that start at `x` and follow `step`:
used to embed the cycle reported by `graphlib`'s `prepare()`. -/
def chains_from (step : String → List String) : Nat → String → List (List String)
  | 0, x => [[x]]
  | n + 1, x =>
    [x] :: ((step x).map (fun y => (chains_from step n y).map (fun l => x :: l))).flatten

/-- The closed walks at `x` witnessing a cycle through `x`: walks along the
reverse edges (so that each node is an immediate predecessor of the next, the
orientation `graphlib.CycleError` documents) that return to `x`, have at least
one edge, and repeat no node before closing. -/
def loops_at (g : DependencyGraph) (x : String) : List (List String) :=
  (chains_from g.reverse_edge_targets g.package_names.length x).filter
    (fun l => l.getLast? == some x && decide (2 ≤ l.length) && decide l.dropLast.Nodup)

/-- Embeds the cycle check of `graphlib.TopologicalSorter.prepare()` (Python
standard library, external to this repository) at its documented contract:
`prepare()` raises `CycleError` exactly when the working graph contains a
cycle, and the reported cycle is a closed walk in which each node is an
immediate predecessor of the next and the first and last nodes coincide; which
cycle is reported is implementation defined. This model reports the first
simple closed walk found from the snapshot names in order. -/
def find_cycle_model (g : DependencyGraph) : Option (List String) :=
  g.package_names.findSome? (fun x => (loops_at g x).head?)

namespace DependencyGraph

/-- Embeds `DependencyGraph.topological_order`. The Python generator first
runs `sorter.prepare()`, converting a `CycleError` into
`CyclicDependencyError` before anything is yielded, then drains the sorter
name by name; it is embedded as the fully materialised yield sequence, with
the pre-yield failure as the `.error` case. -/
def topological_order (g : DependencyGraph) : Except PyMelosError (List Package) :=
  match find_cycle_model g with
  | some cycle => .error (.cyclicDependency cycle)
  | none => .ok (g.lookup_packages (kahn_batches g).flatten)

/-- Embeds `DependencyGraph.parallel_batches`: same prepare-then-drain loop,
but each nonempty ready set is yielded as one batch. -/
def parallel_batches (g : DependencyGraph) : Except PyMelosError (List (List Package)) :=
  match find_cycle_model g with
  | some cycle => .error (.cyclicDependency cycle)
  | none => .ok ((kahn_batches g).map (fun batch => g.lookup_packages batch))

/-- Embeds `DependencyGraph.subgraph`: keep only the packages whose name is in
`names`; the edge maps are rebuilt from scratch over the filtered snapshot. -/
def subgraph (g : DependencyGraph) (names : List String) : DependencyGraph :=
  { packages := g.packages.filter (fun pr => names.contains pr.1) }

/-- Embeds `DependencyGraph.to_dict`: adjacency-list view
`{name: sorted(deps) for name, deps in self._edges.items()}`. -/
def to_dict (g : DependencyGraph) : List (String × List String) :=
  g.package_names.map (fun name => (name, (g.edge_targets name).mergeSort (· ≤ ·)))

end DependencyGraph

/-- The one-step "depends on" relation of the graph: `depends_step g p q`
holds when the snapshot records an edge from `p` to a dependency `q`. -/
def depends_step (g : DependencyGraph) (p q : String) : Prop :=
  q ∈ g.edge_targets p

instance (g : DependencyGraph) (p q : String) : Decidable (depends_step g p q) := by
  unfold depends_step
  infer_instance

/-- A graph is acyclic when no package transitively depends on itself. -/
def DependencyGraph.Acyclic (g : DependencyGraph) : Prop :=
  ∀ x, ¬ Relation.TransGen (depends_step g) x x

/-- The snapshot is keyed consistently: each package is stored under its own
name (how `Workspace.graph` builds the dict in `workspace.py`). -/
def DependencyGraph.well_named (g : DependencyGraph) : Prop :=
  ∀ pr ∈ g.packages, pr.2.name = pr.1

instance (g : DependencyGraph) : Decidable g.well_named := by
  unfold DependencyGraph.well_named
  infer_instance

instance {ε α : Type _} [DecidableEq ε] [DecidableEq α] : DecidableEq (Except ε α)
  | .error a, .error b =>
    if h : a = b then isTrue (congrArg Except.error h)
    else isFalse (fun hc => h (Except.error.inj hc))
  | .error _, .ok _ => isFalse (fun hc => Except.noConfusion hc)
  | .ok _, .error _ => isFalse (fun hc => Except.noConfusion hc)
  | .ok a, .ok b =>
    if h : a = b then isTrue (congrArg Except.ok h)
    else isFalse (fun hc => h (Except.ok.inj hc))

/-- Termination measure for `closure_loop`: the pending stack plus a budget of
`1 + |step x|` for every universe element not yet recorded. -/
def closure_mu (step : String → List String) (univ result stack : List String) : Nat :=
  stack.length +
    ((univ.filter (fun x => decide (x ∉ result))).map (fun x => 1 + (step x).length)).sum


/-- Embeds the fragment of `pymelos.workspace.workspace.Workspace` the claims
touch: the discovered package registry (its path and configuration fields are
input-output glue outside this development). -/
structure Workspace where
  packages : List (String × Package)
deriving DecidableEq, Repr

/-- Embeds `Workspace.get_package`: dict lookup that raises
`PackageNotFoundError(name, list(self.packages.keys()))` when absent. -/
def Workspace.get_package (w : Workspace) (name : String) : Except PyMelosError Package :=
  match (w.packages.find? (fun pr => pr.1 == name)).map Prod.snd with
  | none => .error (.packageNotFound name (w.packages.map Prod.fst))
  | some package => .ok package

/-- Embeds `pymelos.execution.results.ExecutionStatus`. -/
inductive ExecutionStatus where
  | success
  | failure
  | skipped
  | cancelled
deriving DecidableEq, Repr

/-- Embeds `pymelos.execution.results.ExecutionResult` (a frozen dataclass).
The `error` field holds the embedded exception message, if any. -/
structure ExecutionResult where
  package_name : String
  status : ExecutionStatus
  exit_code : Int
  stdout : String := ""
  stderr : String := ""
  duration_ms : Nat := 0
  error : Option String := none
  command : String := ""
deriving DecidableEq, Repr

namespace ExecutionResult

/-- Embeds the `success` property: `self.status == ExecutionStatus.SUCCESS`. -/
def success (r : ExecutionResult) : Bool :=
  r.status == ExecutionStatus.success

/-- Embeds the `failed` property: `self.status == ExecutionStatus.FAILURE`. -/
def failed (r : ExecutionResult) : Bool :=
  r.status == ExecutionStatus.failure

/-- Embeds the `skipped` property: `self.status == ExecutionStatus.SKIPPED`. -/
def skipped (r : ExecutionResult) : Bool :=
  r.status == ExecutionStatus.skipped

/-- Embeds the `ExecutionResult.skipped_result` classmethod: the reason string
is stored in the `stdout` field and every other optional field keeps its
dataclass default. -/
def skipped_result (package_name : String) (reason : String := "") : ExecutionResult :=
  { package_name := package_name
    status := ExecutionStatus.skipped
    exit_code := 0
    stdout := reason }

end ExecutionResult

/-- Embeds `pymelos.execution.results.BatchResult`. -/
structure BatchResult where
  results : List ExecutionResult := []
  total_duration_ms : Nat := 0
deriving DecidableEq, Repr

/-- A small package constructor mirroring the `make_package` helper of the
repository's graph tests. -/
def sample_package (name : String) (deps : List String) : Package :=
  { name := name, path := "/packages/" ++ name, workspace_dependencies := deps }

/-- The linear chain snapshot of the tests: `pkg-a` depends on `pkg-b`,
`pkg-b` depends on `pkg-c`. -/
def chain_graph : DependencyGraph :=
  { packages :=
      [("pkg-a", sample_package "pkg-a" ["pkg-b"]),
       ("pkg-b", sample_package "pkg-b" ["pkg-c"]),
       ("pkg-c", sample_package "pkg-c" [])] }

/-- The two-package cycle snapshot of the tests: `pkg-a` and `pkg-b` depend on
each other. -/
def cycle_graph : DependencyGraph :=
  { packages :=
      [("pkg-a", sample_package "pkg-a" ["pkg-b"]),
       ("pkg-b", sample_package "pkg-b" ["pkg-a"])] }

/-- A one-package snapshot with no dependencies. -/
def solo_graph : DependencyGraph :=
  { packages := [("solo", sample_package "solo" [])] }

namespace BatchResult

/-- Embeds the `all_success` property: `all(r.success or r.skipped for r in self.results)`. -/
def all_success (b : BatchResult) : Bool :=
  b.results.all (fun r => r.success || r.skipped)

/-- Embeds the `any_failure` property: `any(r.failed for r in self.results)`. -/
def any_failure (b : BatchResult) : Bool :=
  b.results.any (fun r => r.failed)

/-- Embeds the `success_count` property: `sum(1 for r in self.results if r.success)`. -/
def success_count (b : BatchResult) : Nat :=
  b.results.countP (fun r => r.success)

/-- Embeds the `failure_count` property: `sum(1 for r in self.results if r.failed)`. -/
def failure_count (b : BatchResult) : Nat :=
  b.results.countP (fun r => r.failed)

/-- Embeds the `skipped_count` property: `sum(1 for r in self.results if r.skipped)`. -/
def skipped_count (b : BatchResult) : Nat :=
  b.results.countP (fun r => r.skipped)

/-- Embeds the `failed_packages` property. -/
def failed_packages (b : BatchResult) : List String :=
  (b.results.filter (fun r => r.failed)).map (fun r => r.package_name)

/-- Embeds the `successful_packages` property. -/
def successful_packages (b : BatchResult) : List String :=
  (b.results.filter (fun r => r.success)).map (fun r => r.package_name)

end BatchResult

/-! ### Basic lemmas about the snapshot, lookups and edges -/

lemma contains_iff_mem (l : List String) (a : String) : l.contains a = true ↔ a ∈ l :=
  List.elem_iff

lemma DependencyGraph.find_package_eq_none_iff (g : DependencyGraph) (n : String) :
    g.find_package n = none ↔ n ∉ g.package_names := by
  unfold DependencyGraph.find_package DependencyGraph.package_names
  simp only [Option.map_eq_none', List.find?_eq_none, beq_iff_eq, List.mem_map]
  constructor
  · rintro h ⟨pr, hpr, rfl⟩
    exact h pr hpr rfl
  · intro h pr hpr heq
    exact h ⟨pr, hpr, heq⟩

lemma DependencyGraph.find_package_isSome_of_mem {g : DependencyGraph} {n : String}
    (h : n ∈ g.package_names) : (g.find_package n).isSome := by
  cases hf : g.find_package n with
  | none => exact absurd ((g.find_package_eq_none_iff n).mp hf) (not_not_intro h)
  | some _ => rfl

lemma DependencyGraph.mem_of_find_package_eq_some {g : DependencyGraph} {n : String}
    {pkg : Package} (h : g.find_package n = some pkg) : n ∈ g.package_names := by
  by_contra hn
  rw [← g.find_package_eq_none_iff n] at hn
  rw [hn] at h
  exact Option.noConfusion h

lemma DependencyGraph.name_of_find_package {g : DependencyGraph} (hwn : g.well_named)
    {n : String} {pkg : Package} (h : g.find_package n = some pkg) : pkg.name = n := by
  unfold DependencyGraph.find_package at h
  cases hf : g.packages.find? (fun pr => pr.1 == n) with
  | none => rw [hf] at h; exact Option.noConfusion h
  | some pr =>
    rw [hf] at h
    have hkey : pr.1 = n := by simpa using List.find?_some hf
    have hmem : pr ∈ g.packages := List.mem_of_find?_eq_some hf
    have := hwn pr hmem
    simp only [Option.map_some', Option.some_inj] at h
    rw [← h, this, hkey]

lemma DependencyGraph.target_mem_of_mem_edge_targets {g : DependencyGraph} {p q : String}
    (h : q ∈ g.edge_targets p) : q ∈ g.package_names := by
  unfold DependencyGraph.edge_targets at h
  cases hf : g.find_package p with
  | none => rw [hf] at h; simp at h
  | some pkg =>
    rw [hf] at h
    rw [List.mem_dedup] at h
    obtain ⟨dep, _, hres⟩ := List.mem_filterMap.mp h
    exact List.mem_of_find?_eq_some hres

lemma DependencyGraph.source_mem_of_mem_edge_targets {g : DependencyGraph} {p q : String}
    (h : q ∈ g.edge_targets p) : p ∈ g.package_names := by
  unfold DependencyGraph.edge_targets at h
  cases hf : g.find_package p with
  | none => rw [hf] at h; simp at h
  | some pkg => exact DependencyGraph.mem_of_find_package_eq_some hf

lemma DependencyGraph.mem_reverse_edge_targets_iff (g : DependencyGraph) (p q : String) :
    q ∈ g.reverse_edge_targets p ↔ q ∈ g.package_names ∧ p ∈ g.edge_targets q := by
  unfold DependencyGraph.reverse_edge_targets
  simp [List.mem_filter, contains_iff_mem]

lemma DependencyGraph.map_name_lookup_packages {g : DependencyGraph} (hwn : g.well_named) :
    ∀ names : List String,
      (g.lookup_packages names).map Package.name =
        names.filter (fun d => decide (d ∈ g.package_names)) := by
  intro names
  induction names with
  | nil => rfl
  | cons d rest ih =>
    unfold DependencyGraph.lookup_packages at ih ⊢
    cases hf : g.find_package d with
    | none =>
      have hd : d ∉ g.package_names := (g.find_package_eq_none_iff d).mp hf
      simp [List.filterMap_cons, hf, List.filter_cons, hd, ih]
    | some pkg =>
      have hd : d ∈ g.package_names := DependencyGraph.mem_of_find_package_eq_some hf
      have hname : pkg.name = d := DependencyGraph.name_of_find_package hwn hf
      simp [List.filterMap_cons, hf, List.filter_cons, hd, ih, hname]

lemma DependencyGraph.lookup_packages_names_of_subset {g : DependencyGraph}
    (hwn : g.well_named) {names : List String} (h : ∀ d ∈ names, d ∈ g.package_names) :
    (g.lookup_packages names).map Package.name = names := by
  rw [DependencyGraph.map_name_lookup_packages hwn]
  exact List.filter_eq_self.mpr (fun d hd => by simpa using h d hd)

lemma DependencyGraph.subgraph_package_names_subset (g : DependencyGraph)
    (names : List String) : ∀ n ∈ (g.subgraph names).package_names, n ∈ names := by
  intro n hn
  unfold DependencyGraph.subgraph DependencyGraph.package_names at hn
  obtain ⟨pr, hpr, rfl⟩ := List.mem_map.mp hn
  have := (List.mem_filter.mp hpr).2
  simpa [contains_iff_mem] using this

/-! ### Claims about queries on unknown names, the registry lookup, batch
results and skipped results -/

/-- C7: For every name not present in the graph's snapshot, the graph-level
queries `get_dependencies(name)` and `get_dependents(name)` return an empty
collection without raising; whereas the registry-level `Workspace.get_package`
raises a package-not-found error when the workspace does not contain the name,
and returns the stored package unchanged when it is present. -/
theorem claim_C7 (g : DependencyGraph) (w : Workspace) (name wname : String)
    (hg : name ∉ g.package_names) :
    g.get_dependencies name = [] ∧ g.get_dependents name = [] ∧
    (wname ∉ w.packages.map Prod.fst →
      w.get_package wname =
        .error (.packageNotFound wname (w.packages.map Prod.fst))) ∧
    (∀ pkg, (w.packages.find? (fun pr => pr.1 == wname)).map Prod.snd = some pkg →
      w.get_package wname = .ok pkg) := by
  refine ⟨?_, ?_, ?_, ?_⟩
  · have h1 : g.edge_targets name = [] := by
      unfold DependencyGraph.edge_targets
      rw [(g.find_package_eq_none_iff name).mpr hg]
    unfold DependencyGraph.get_dependencies
    rw [h1]
    rfl
  · have h2 : g.reverse_edge_targets name = [] := by
      unfold DependencyGraph.reverse_edge_targets
      rw [List.filter_eq_nil_iff]
      intro n _ hc
      have : name ∈ g.edge_targets n := (contains_iff_mem _ _).mp (by simpa using hc)
      exact hg (DependencyGraph.target_mem_of_mem_edge_targets this)
    unfold DependencyGraph.get_dependents
    rw [h2]
    rfl
  · intro hw
    unfold Workspace.get_package
    have : w.packages.find? (fun pr => pr.1 == wname) = none := by
      rw [List.find?_eq_none]
      intro pr hpr hb
      exact hw (List.mem_map.mpr ⟨pr, hpr, by simpa using hb⟩)
    rw [this]
    rfl
  · intro pkg hpkg
    unfold Workspace.get_package
    rw [hpkg]

/-- Witness for C7 at a concrete graph and workspace. -/
theorem claim_C7_witness :
    "ghost" ∉ chain_graph.package_names ∧
    (chain_graph.get_dependencies "ghost" = [] ∧
      chain_graph.get_dependents "ghost" = [] ∧
      ("nope" ∉ (Workspace.mk chain_graph.packages).packages.map Prod.fst →
        (Workspace.mk chain_graph.packages).get_package "nope" =
          .error (.packageNotFound "nope"
            ((Workspace.mk chain_graph.packages).packages.map Prod.fst))) ∧
      (∀ pkg,
        ((Workspace.mk chain_graph.packages).packages.find?
            (fun pr => pr.1 == "nope")).map Prod.snd = some pkg →
        (Workspace.mk chain_graph.packages).get_package "nope" = .ok pkg)) :=
  ⟨by decide, claim_C7 chain_graph (Workspace.mk chain_graph.packages) "ghost" "nope"
    (by decide)⟩

/-- C9: `all_success` holds exactly when every result has status success or
skipped (so it holds for the empty batch, and fails when any result is
cancelled); `any_failure` holds exactly when some result has status failure;
and the three counters equal the number of results with the matching status. -/
theorem claim_C9 (b : BatchResult) :
    (b.all_success = true ↔
      ∀ r ∈ b.results,
        r.status = ExecutionStatus.success ∨ r.status = ExecutionStatus.skipped) ∧
    (BatchResult.all_success {} = true) ∧
    ((∃ r ∈ b.results, r.status = ExecutionStatus.cancelled) →
      b.all_success = false) ∧
    (b.any_failure = true ↔ ∃ r ∈ b.results, r.status = ExecutionStatus.failure) ∧
    b.success_count =
      (b.results.filter (fun r => r.status == ExecutionStatus.success)).length ∧
    b.failure_count =
      (b.results.filter (fun r => r.status == ExecutionStatus.failure)).length ∧
    b.skipped_count =
      (b.results.filter (fun r => r.status == ExecutionStatus.skipped)).length := by
  have hall : b.all_success = true ↔
      ∀ r ∈ b.results,
        r.status = ExecutionStatus.success ∨ r.status = ExecutionStatus.skipped := by
    unfold BatchResult.all_success ExecutionResult.success ExecutionResult.skipped
    simp [List.all_eq_true, beq_iff_eq]
  refine ⟨hall, by decide, ?_, ?_, ?_, ?_, ?_⟩
  · rintro ⟨r, hr, hcancel⟩
    cases hb : b.all_success with
    | false => rfl
    | true =>
      rcases hall.mp hb r hr with h | h <;> rw [hcancel] at h <;> cases h
  · unfold BatchResult.any_failure ExecutionResult.failed
    simp [List.any_eq_true]
  · unfold BatchResult.success_count ExecutionResult.success
    exact List.countP_eq_length_filter _ _
  · unfold BatchResult.failure_count ExecutionResult.failed
    exact List.countP_eq_length_filter _ _
  · unfold BatchResult.skipped_count ExecutionResult.skipped
    exact List.countP_eq_length_filter _ _

/-- C10: `ExecutionResult.skipped_result(package_name, reason)` constructs a
result with status skipped and exit code 0, storing the reason in the
`stdout` field (the record has no dedicated reason field), with every other
field at its dataclass default. -/
theorem claim_C10 (p reason : String) :
    (ExecutionResult.skipped_result p reason).status = ExecutionStatus.skipped ∧
    (ExecutionResult.skipped_result p reason).exit_code = 0 ∧
    (ExecutionResult.skipped_result p reason).stdout = reason ∧
    (ExecutionResult.skipped_result p reason).package_name = p ∧
    (ExecutionResult.skipped_result p reason).stderr = "" ∧
    (ExecutionResult.skipped_result p reason).duration_ms = 0 ∧
    (ExecutionResult.skipped_result p reason).error = none ∧
    (ExecutionResult.skipped_result p reason).command = "" :=
  ⟨rfl, rfl, rfl, rfl, rfl, rfl, rfl, rfl⟩

/-- C8: Every edge in the forward and reverse maps references only names
present in the snapshot; an edge exists only where a declared workspace
dependency resolves (by normalised name) to a snapshot package, so an
unresolvable declaration produces no edge (and the construction is total, so
no error); and every entry of `subgraph(names).to_dict()` has both endpoints
inside `names` (and inside the subgraph's own snapshot). -/
theorem claim_C8 (g : DependencyGraph) (names : List String) :
    (∀ p q, q ∈ g.edge_targets p → p ∈ g.package_names ∧ q ∈ g.package_names) ∧
    (∀ p q, q ∈ g.reverse_edge_targets p →
      p ∈ g.package_names ∧ q ∈ g.package_names) ∧
    (∀ p q, q ∈ g.edge_targets p →
      ∃ pkg, g.find_package p = some pkg ∧
        ∃ dep ∈ pkg.workspace_dependencies,
          resolve_workspace_dep g.package_names dep = some q) ∧
    (∀ pr ∈ (g.subgraph names).to_dict,
      pr.1 ∈ names ∧
      ∀ d ∈ pr.2, d ∈ names ∧ d ∈ (g.subgraph names).package_names) := by
  refine ⟨?_, ?_, ?_, ?_⟩
  · intro p q h
    exact ⟨DependencyGraph.source_mem_of_mem_edge_targets h,
      DependencyGraph.target_mem_of_mem_edge_targets h⟩
  · intro p q h
    rcases (g.mem_reverse_edge_targets_iff p q).mp h with ⟨hq, hpq⟩
    exact ⟨DependencyGraph.target_mem_of_mem_edge_targets hpq, hq⟩
  · intro p q h
    unfold DependencyGraph.edge_targets at h
    cases hf : g.find_package p with
    | none => rw [hf] at h; simp at h
    | some pkg =>
      rw [hf] at h
      rw [List.mem_dedup] at h
      obtain ⟨dep, hdep, hres⟩ := List.mem_filterMap.mp h
      exact ⟨pkg, rfl, dep, hdep, hres⟩
  · intro pr hpr
    unfold DependencyGraph.to_dict at hpr
    obtain ⟨n, hn, rfl⟩ := List.mem_map.mp hpr
    refine ⟨DependencyGraph.subgraph_package_names_subset g names n hn, ?_⟩
    intro d hd
    rw [List.mem_mergeSort] at hd
    have hmem := DependencyGraph.target_mem_of_mem_edge_targets hd
    exact ⟨DependencyGraph.subgraph_package_names_subset g names d hmem, hmem⟩

/-- Witness for C8 at a concrete graph and name set. -/
theorem claim_C8_witness :
    (∀ p q, q ∈ chain_graph.edge_targets p →
      p ∈ chain_graph.package_names ∧ q ∈ chain_graph.package_names) ∧
    (∀ p q, q ∈ chain_graph.reverse_edge_targets p →
      p ∈ chain_graph.package_names ∧ q ∈ chain_graph.package_names) ∧
    (∀ p q, q ∈ chain_graph.edge_targets p →
      ∃ pkg, chain_graph.find_package p = some pkg ∧
        ∃ dep ∈ pkg.workspace_dependencies,
          resolve_workspace_dep chain_graph.package_names dep = some q) ∧
    (∀ pr ∈ (chain_graph.subgraph ["pkg-a", "pkg-b"]).to_dict,
      pr.1 ∈ ["pkg-a", "pkg-b"] ∧
      ∀ d ∈ pr.2, d ∈ ["pkg-a", "pkg-b"] ∧
        d ∈ (chain_graph.subgraph ["pkg-a", "pkg-b"]).package_names) :=
  claim_C8 chain_graph ["pkg-a", "pkg-b"]

/-! ### Correctness of the frontier traversal -/

lemma filter_notMem_append_congr {l result : List String} {dep : String} (hdep : dep ∉ l) :
    l.filter (fun x => decide (x ∉ result ++ [dep])) =
      l.filter (fun x => decide (x ∉ result)) := by
  apply List.filter_congr
  intro x hx
  have hne : x ≠ dep := fun h => hdep (h ▸ hx)
  simp [List.mem_append, hne]

lemma closure_mu_drop (step : String → List String) {univ : List String} (hu : univ.Nodup)
    {dep : String} {result : List String} (hdep : dep ∈ univ) (hres : dep ∉ result) :
    ((univ.filter (fun x => decide (x ∉ result))).map (fun x => 1 + (step x).length)).sum =
      (1 + (step dep).length) +
        ((univ.filter (fun x => decide (x ∉ result ++ [dep]))).map
          (fun x => 1 + (step x).length)).sum := by
  induction univ with
  | nil => cases hdep
  | cons u us ih =>
    rw [List.nodup_cons] at hu
    rcases List.mem_cons.mp hdep with rfl | hdep'
    · have h1 : (decide (dep ∉ result)) = true := by simpa using hres
      have h2 : (decide (dep ∉ result ++ [dep])) = false := by simp
      rw [List.filter_cons, List.filter_cons, h1, h2, if_pos rfl,
        if_neg Bool.false_ne_true]
      simp only [List.map_cons, List.sum_cons]
      rw [filter_notMem_append_congr hu.1]
    · have hne : u ≠ dep := fun h => hu.1 (h ▸ hdep')
      have hsame : (decide (u ∉ result ++ [dep])) = (decide (u ∉ result)) := by
        simp [List.mem_append, hne]
      rw [List.filter_cons, List.filter_cons, hsame]
      have hrec := ih hu.2 hdep'
      cases hcond : decide (u ∉ result) with
      | false => simpa [hcond] using hrec
      | true =>
        simp only [hcond, if_true, List.map_cons, List.sum_cons]
        omega

lemma closure_loop_spec (step : String → List String) (univ : List String)
    (hu : univ.Nodup) (hclosed : ∀ x y, y ∈ step x → y ∈ univ) :
    ∀ (fuel : Nat) (result stack : List String),
      (∀ s ∈ stack, s ∈ univ) → result.Nodup →
      (∀ x ∈ result, ∀ y ∈ step x, y ∈ result ∨ y ∈ stack) →
      closure_mu step univ result stack ≤ fuel →
      (∀ x ∈ result, x ∈ closure_loop step fuel result stack) ∧
      (closure_loop step fuel result stack).Nodup ∧
      (∀ x ∈ closure_loop step fuel result stack, ∀ y ∈ step x,
        y ∈ closure_loop step fuel result stack) ∧
      (∀ s ∈ stack, s ∈ closure_loop step fuel result stack) ∧
      (∀ x ∈ closure_loop step fuel result stack,
        x ∈ result ∨ ∃ s ∈ stack, Relation.ReflTransGen (fun a b => b ∈ step a) s x) := by
  intro fuel
  induction fuel with
  | zero =>
    intro result stack hstack hnodup hinv hfuel
    have hlen : stack = [] := by
      have : stack.length = 0 := by unfold closure_mu at hfuel; omega
      exact List.length_eq_zero.mp this
    subst hlen
    refine ⟨fun x hx => hx, hnodup, ?_, ?_, fun x hx => Or.inl hx⟩
    · intro x hx y hy
      rcases hinv x hx y hy with h | h
      · exact h
      · cases h
    · intro s hs; cases hs
  | succ fuel ih =>
    intro result stack hstack hnodup hinv hfuel
    cases stack with
    | nil =>
      refine ⟨fun x hx => hx, hnodup, ?_, ?_, fun x hx => Or.inl hx⟩
      · intro x hx y hy
        rcases hinv x hx y hy with h | h
        · exact h
        · cases h
      · intro s hs; cases hs
    | cons dep rest =>
      by_cases hdep : dep ∈ result
      · have hred : closure_loop step (fuel + 1) result (dep :: rest) =
            closure_loop step fuel result rest := by
          simp [closure_loop, hdep]
        rw [hred]
        have hrec := ih result rest (fun s hs => hstack s (List.mem_cons_of_mem _ hs)) hnodup
          (fun x hx y hy => by
            rcases hinv x hx y hy with h | h
            · exact Or.inl h
            · rcases List.mem_cons.mp h with rfl | h'
              · exact Or.inl hdep
              · exact Or.inr h')
          (by
            unfold closure_mu at hfuel ⊢
            simp only [List.length_cons] at hfuel
            omega)
        obtain ⟨h1, h2, h3, h4, h5⟩ := hrec
        refine ⟨h1, h2, h3, ?_, ?_⟩
        · intro s hs
          rcases List.mem_cons.mp hs with rfl | hs'
          · exact h1 s hdep
          · exact h4 s hs'
        · intro x hx
          rcases h5 x hx with h | ⟨s, hs, hrtg⟩
          · exact Or.inl h
          · exact Or.inr ⟨s, List.mem_cons_of_mem _ hs, hrtg⟩
      · have hdep_univ : dep ∈ univ := hstack dep (List.mem_cons_self _ _)
        have hred : closure_loop step (fuel + 1) result (dep :: rest) =
            closure_loop step fuel (result ++ [dep]) (step dep ++ rest) := by
          simp [closure_loop, hdep]
        rw [hred]
        have hmu : closure_mu step univ (result ++ [dep]) (step dep ++ rest) + 2 =
            closure_mu step univ result (dep :: rest) := by
          unfold closure_mu
          rw [closure_mu_drop step hu hdep_univ hdep]
          simp only [List.length_append, List.length_cons]
          omega
        have hrec := ih (result ++ [dep]) (step dep ++ rest)
          (fun s hs => by
            rcases List.mem_append.mp hs with h | h
            · exact hclosed dep s h
            · exact hstack s (List.mem_cons_of_mem _ h))
          (by simp [List.nodup_append, hnodup, hdep])
          (fun x hx y hy => by
            rcases List.mem_append.mp hx with hx' | hx'
            · rcases hinv x hx' y hy with h | h
              · exact Or.inl (List.mem_append_left _ h)
              · rcases List.mem_cons.mp h with rfl | h'
                · exact Or.inl (List.mem_append_right _ (List.mem_singleton_self _))
                · exact Or.inr (List.mem_append_right _ h')
            · have hx'' : x = dep := List.mem_singleton.mp hx'
              subst hx''
              exact Or.inr (List.mem_append_left _ hy))
          (by omega)
        obtain ⟨h1, h2, h3, h4, h5⟩ := hrec
        refine ⟨?_, h2, h3, ?_, ?_⟩
        · intro x hx; exact h1 x (List.mem_append_left _ hx)
        · intro s hs
          rcases List.mem_cons.mp hs with rfl | hs'
          · exact h1 s (List.mem_append_right _ (List.mem_singleton_self _))
          · exact h4 s (List.mem_append_right _ hs')
        · intro x hx
          rcases h5 x hx with h | ⟨s, hs, hrtg⟩
          · rcases List.mem_append.mp h with h' | h'
            · exact Or.inl h'
            · have hx' : x = dep := List.mem_singleton.mp h'
              subst hx'
              exact Or.inr ⟨x, List.mem_cons_self _ _, Relation.ReflTransGen.refl⟩
          · rcases List.mem_append.mp hs with h' | h'
            · exact Or.inr ⟨dep, List.mem_cons_self _ _, Relation.ReflTransGen.head h' hrtg⟩
            · exact Or.inr ⟨s, List.mem_cons_of_mem _ h', hrtg⟩

lemma rtg_mem_univ {step : String → List String} {univ : List String}
    (hclosed : ∀ x y, y ∈ step x → y ∈ univ) {s x : String} (hs : s ∈ univ)
    (h : Relation.ReflTransGen (fun a b => b ∈ step a) s x) : x ∈ univ := by
  induction h with
  | refl => exact hs
  | tail _ hstep _ => exact hclosed _ _ hstep

lemma closure_loop_run (step : String → List String) (univ : List String)
    (hu : univ.Nodup) (hclosed : ∀ x y, y ∈ step x → y ∈ univ)
    (start : List String) (hstart : ∀ s ∈ start, s ∈ univ) :
    (closure_loop step (closure_fuel step univ start) [] start).Nodup ∧
    (∀ x, x ∈ closure_loop step (closure_fuel step univ start) [] start ↔
      ∃ s ∈ start, Relation.ReflTransGen (fun a b => b ∈ step a) s x) := by
  have hmu : closure_mu step univ [] start ≤ closure_fuel step univ start := by
    unfold closure_mu closure_fuel
    have hfe : univ.filter (fun x => decide (x ∉ ([] : List String))) = univ := by simp
    rw [hfe]
  obtain ⟨_, h2, h3, h4, h5⟩ := closure_loop_spec step univ hu hclosed _ [] start hstart
    List.nodup_nil (by intro x hx; cases hx) hmu
  refine ⟨h2, fun x => ⟨?_, ?_⟩⟩
  · intro hx
    rcases h5 x hx with h | h
    · cases h
    · exact h
  · rintro ⟨s, hs, hrtg⟩
    induction hrtg with
    | refl => exact h4 s hs
    | tail _ hbc ih => exact h3 _ ih _ hbc

lemma transitive_dependencies_spec (g : DependencyGraph) (hnd : g.package_names.Nodup)
    (hwn : g.well_named) (name : String) :
    ((g.get_transitive_dependencies name).map Package.name).Nodup ∧
    ∀ x, x ∈ (g.get_transitive_dependencies name).map Package.name ↔
      Relation.TransGen (depends_step g) name x := by
  have hclosed : ∀ x y, y ∈ g.edge_targets x → y ∈ g.package_names :=
    fun _ _ hy => DependencyGraph.target_mem_of_mem_edge_targets hy
  have hstart : ∀ s ∈ g.edge_targets name, s ∈ g.package_names :=
    fun _ hs => hclosed _ _ hs
  obtain ⟨hnodup, hmem⟩ := closure_loop_run g.edge_targets g.package_names hnd hclosed
    (g.edge_targets name) hstart
  have hsub : ∀ x ∈ closure_loop g.edge_targets
      (closure_fuel g.edge_targets g.package_names (g.edge_targets name))
      [] (g.edge_targets name), x ∈ g.package_names := by
    intro x hx
    rcases (hmem x).mp hx with ⟨s, hs, hrtg⟩
    exact rtg_mem_univ hclosed (hstart s hs) hrtg
  have hmap := DependencyGraph.lookup_packages_names_of_subset hwn hsub
  unfold DependencyGraph.get_transitive_dependencies
  rw [hmap]
  refine ⟨hnodup, fun x => ?_⟩
  rw [hmem x, Relation.TransGen.head'_iff]
  rfl

lemma transitive_dependents_spec (g : DependencyGraph) (hnd : g.package_names.Nodup)
    (hwn : g.well_named) (name : String) :
    ((g.get_transitive_dependents name).map Package.name).Nodup ∧
    ∀ x, x ∈ (g.get_transitive_dependents name).map Package.name ↔
      Relation.TransGen (depends_step g) x name := by
  have hclosed : ∀ x y, y ∈ g.reverse_edge_targets x → y ∈ g.package_names :=
    fun x y hy => ((g.mem_reverse_edge_targets_iff x y).mp hy).1
  have hstart : ∀ s ∈ g.reverse_edge_targets name, s ∈ g.package_names :=
    fun _ hs => hclosed _ _ hs
  obtain ⟨hnodup, hmem⟩ := closure_loop_run g.reverse_edge_targets g.package_names hnd
    hclosed (g.reverse_edge_targets name) hstart
  have hsub : ∀ x ∈ closure_loop g.reverse_edge_targets
      (closure_fuel g.reverse_edge_targets g.package_names (g.reverse_edge_targets name))
      [] (g.reverse_edge_targets name), x ∈ g.package_names := by
    intro x hx
    rcases (hmem x).mp hx with ⟨s, hs, hrtg⟩
    exact rtg_mem_univ hclosed (hstart s hs) hrtg
  have hmap := DependencyGraph.lookup_packages_names_of_subset hwn hsub
  unfold DependencyGraph.get_transitive_dependents
  rw [hmap]
  refine ⟨hnodup, fun x => ?_⟩
  rw [hmem x]
  have hrevGen : Relation.TransGen (fun a b => b ∈ g.reverse_edge_targets a) name x ↔
      Relation.TransGen (depends_step g) x name := by
    constructor
    · intro h
      have h' : Relation.TransGen (Function.swap (depends_step g)) name x :=
        h.mono (fun a b hab => ((g.mem_reverse_edge_targets_iff a b).mp hab).2)
      exact Relation.transGen_swap.mp h'
    · intro h
      have h' : Relation.TransGen
          (Function.swap (fun a b => b ∈ g.reverse_edge_targets a)) x name := by
        apply h.mono
        intro a b hab
        exact (g.mem_reverse_edge_targets_iff b a).mpr
          ⟨DependencyGraph.source_mem_of_mem_edge_targets hab, hab⟩
      exact Relation.transGen_swap.mp h'
  rw [← hrevGen, Relation.TransGen.head'_iff]

lemma target_mem_of_transGen {g : DependencyGraph} {x c : String}
    (h : Relation.TransGen (depends_step g) x c) : c ∈ g.package_names := by
  cases h with
  | single hab => exact DependencyGraph.target_mem_of_mem_edge_targets hab
  | tail _ hbc => exact DependencyGraph.target_mem_of_mem_edge_targets hbc

/-- C5 (amended): `transitive_dependencies(name)` and
`transitive_dependents(name)` return each package reachable through a
nonempty dependency path exactly once; `name` itself is excluded exactly when
no cycle passes through `name` (when a cycle passes through `name`, `name`
appears in its own closure). -/
theorem claim_C5 (g : DependencyGraph) (hnd : g.package_names.Nodup)
    (hwn : g.well_named) (name : String) :
    (((g.get_transitive_dependencies name).map Package.name).Nodup ∧
      ∀ x, x ∈ (g.get_transitive_dependencies name).map Package.name ↔
        Relation.TransGen (depends_step g) name x) ∧
    (((g.get_transitive_dependents name).map Package.name).Nodup ∧
      ∀ x, x ∈ (g.get_transitive_dependents name).map Package.name ↔
        Relation.TransGen (depends_step g) x name) ∧
    (name ∉ (g.get_transitive_dependencies name).map Package.name ↔
      ¬ Relation.TransGen (depends_step g) name name) :=
  ⟨transitive_dependencies_spec g hnd hwn name,
   transitive_dependents_spec g hnd hwn name,
   not_congr ((transitive_dependencies_spec g hnd hwn name).2 name)⟩

/-- C5 counterexample: in the two-package cycle snapshot, `pkg-a` appears in
its own transitive dependencies, so the claimed unconditional "excluding
`name` itself" fails for cyclic graphs. -/
theorem claim_C5_counterexample :
    "pkg-a" ∈ (cycle_graph.get_transitive_dependencies "pkg-a").map Package.name := by
  decide

/-- Witness for C5 at the concrete chain snapshot. -/
theorem claim_C5_witness :
    chain_graph.package_names.Nodup ∧ chain_graph.well_named ∧
    ((((chain_graph.get_transitive_dependencies "pkg-c").map Package.name).Nodup ∧
      ∀ x, x ∈ (chain_graph.get_transitive_dependencies "pkg-c").map Package.name ↔
        Relation.TransGen (depends_step chain_graph) "pkg-c" x) ∧
    (((chain_graph.get_transitive_dependents "pkg-c").map Package.name).Nodup ∧
      ∀ x, x ∈ (chain_graph.get_transitive_dependents "pkg-c").map Package.name ↔
        Relation.TransGen (depends_step chain_graph) x "pkg-c") ∧
    ("pkg-c" ∉ (chain_graph.get_transitive_dependencies "pkg-c").map Package.name ↔
      ¬ Relation.TransGen (depends_step chain_graph) "pkg-c" "pkg-c")) :=
  ⟨by decide, by decide, claim_C5 chain_graph (by decide) (by decide) "pkg-c"⟩

/-- C6 (amended): `affected_packages(changed)` contains exactly the snapshot
names that are in `changed` or transitively depend on a member of `changed`,
each exactly once; a changed name that is not itself a snapshot package is
dropped from the result rather than echoed back. -/
theorem claim_C6 (g : DependencyGraph) (hnd : g.package_names.Nodup)
    (hwn : g.well_named) (changed : List String) :
    ((g.get_affected_packages changed).map Package.name).Nodup ∧
    ∀ x, x ∈ (g.get_affected_packages changed).map Package.name ↔
      x ∈ g.package_names ∧
        (x ∈ changed ∨ ∃ c ∈ changed, Relation.TransGen (depends_step g) x c) := by
  unfold DependencyGraph.get_affected_packages
  rw [DependencyGraph.map_name_lookup_packages hwn]
  constructor
  · exact List.Nodup.filter _ (by unfold DependencyGraph.affected_names; exact List.nodup_dedup _)
  · intro x
    rw [List.mem_filter]
    unfold DependencyGraph.affected_names
    simp only [List.mem_dedup, List.mem_append, List.mem_flatMap, List.mem_filter,
      contains_iff_mem, decide_eq_true_eq]
    constructor
    · rintro ⟨hx, hxn⟩
      refine ⟨hxn, ?_⟩
      rcases hx with hx | ⟨c, ⟨hc, _⟩, hx⟩
      · exact Or.inl hx
      · exact Or.inr ⟨c, hc, ((transitive_dependents_spec g hnd hwn c).2 x).mp hx⟩
    · rintro ⟨hxn, hx | ⟨c, hc, htg⟩⟩
      · exact ⟨Or.inl hx, hxn⟩
      · refine ⟨Or.inr ⟨c, ⟨hc, target_mem_of_transGen htg⟩, ?_⟩, hxn⟩
        exact ((transitive_dependents_spec g hnd hwn c).2 x).mpr htg

/-- C6 counterexample: for a changed name that is not a snapshot package, the
result does not contain the changed name, so the claimed unconditional
"affected_packages({X}) always contains X" fails. -/
theorem claim_C6_counterexample :
    "x" ∉ (solo_graph.get_affected_packages ["x"]).map Package.name := by
  decide

/-- Witness for C6 at the concrete chain snapshot. -/
theorem claim_C6_witness :
    chain_graph.package_names.Nodup ∧ chain_graph.well_named ∧
    (((chain_graph.get_affected_packages ["pkg-c"]).map Package.name).Nodup ∧
    ∀ x, x ∈ (chain_graph.get_affected_packages ["pkg-c"]).map Package.name ↔
      x ∈ chain_graph.package_names ∧
        (x ∈ ["pkg-c"] ∨
          ∃ c ∈ ["pkg-c"], Relation.TransGen (depends_step chain_graph) x c)) :=
  ⟨by decide, by decide, claim_C6 chain_graph (by decide) (by decide) ["pkg-c"]⟩

/-! ### Correctness of the sorter loop (Kahn rounds) -/

lemma mem_kahn_ready (g : DependencyGraph) (emitted : List String) (n : String) :
    n ∈ kahn_ready g emitted ↔
      n ∈ g.package_names ∧ n ∉ emitted ∧ ∀ d ∈ g.edge_targets n, d ∈ emitted := by
  unfold kahn_ready
  rw [List.mem_filter]
  simp only [Bool.and_eq_true, Bool.not_eq_true', List.all_eq_true, and_assoc]
  constructor
  · rintro ⟨h1, h2, h3⟩
    refine ⟨h1, ?_, ?_⟩
    · intro hc
      rw [(contains_iff_mem emitted n).mpr hc] at h2
      cases h2
    · intro d hd
      exact (contains_iff_mem emitted d).mp (h3 d hd)
  · rintro ⟨h1, h2, h3⟩
    refine ⟨h1, ?_, ?_⟩
    · cases hc : emitted.contains n with
      | false => rfl
      | true => exact absurd ((contains_iff_mem emitted n).mp hc) h2
    · intro d hd
      exact (contains_iff_mem emitted d).mpr (h3 d hd)

lemma kahn_ready_nodup {g : DependencyGraph} (hnd : g.package_names.Nodup)
    (emitted : List String) : (kahn_ready g emitted).Nodup :=
  hnd.filter _

lemma kahn_flatten_mem {g : DependencyGraph} :
    ∀ (fuel : Nat) (emitted : List String) (x : String),
      x ∈ (kahn_batches_aux g fuel emitted).flatten →
      x ∈ g.package_names ∧ x ∉ emitted := by
  intro fuel
  induction fuel with
  | zero => intro emitted x hx; cases hx
  | succ fuel ih =>
    intro emitted x hx
    unfold kahn_batches_aux at hx
    by_cases hre : (kahn_ready g emitted).isEmpty
    · rw [if_pos hre] at hx; cases hx
    · rw [if_neg hre, List.flatten_cons] at hx
      rcases List.mem_append.mp hx with h | h
      · rcases (mem_kahn_ready g emitted x).mp h with ⟨h1, h2, _⟩
        exact ⟨h1, h2⟩
      · rcases ih (emitted ++ kahn_ready g emitted) x h with ⟨h1, h2⟩
        exact ⟨h1, fun hc => h2 (List.mem_append_left _ hc)⟩

lemma kahn_flatten_nodup {g : DependencyGraph} (hnd : g.package_names.Nodup) :
    ∀ (fuel : Nat) (emitted : List String),
      (kahn_batches_aux g fuel emitted).flatten.Nodup := by
  intro fuel
  induction fuel with
  | zero => intro emitted; exact List.nodup_nil
  | succ fuel ih =>
    intro emitted
    unfold kahn_batches_aux
    by_cases hre : (kahn_ready g emitted).isEmpty
    · rw [if_pos hre]; exact List.nodup_nil
    · rw [if_neg hre, List.flatten_cons, List.nodup_append]
      refine ⟨kahn_ready_nodup hnd emitted, ih _, ?_⟩
      intro x hx hx'
      rcases kahn_flatten_mem fuel (emitted ++ kahn_ready g emitted) x hx' with ⟨_, h2⟩
      exact h2 (List.mem_append_right _ hx)

lemma kahn_batches_aux_get {g : DependencyGraph} :
    ∀ (fuel : Nat) (emitted : List String) (k : Nat)
      (hk : k < (kahn_batches_aux g fuel emitted).length),
      (kahn_batches_aux g fuel emitted).get ⟨k, hk⟩ =
        kahn_ready g (emitted ++ ((kahn_batches_aux g fuel emitted).take k).flatten) := by
  intro fuel
  induction fuel with
  | zero => intro emitted k hk; cases hk
  | succ fuel ih =>
    intro emitted k hk
    by_cases hre : (kahn_ready g emitted).isEmpty
    · exfalso
      unfold kahn_batches_aux at hk
      rw [if_pos hre] at hk
      cases hk
    · have hred : kahn_batches_aux g (fuel + 1) emitted =
          kahn_ready g emitted ::
            kahn_batches_aux g fuel (emitted ++ kahn_ready g emitted) := by
        conv_lhs => unfold kahn_batches_aux
        rw [if_neg hre]
      cases k with
      | zero => simp [hred]
      | succ k =>
        have hk' : k < (kahn_batches_aux g fuel (emitted ++ kahn_ready g emitted)).length := by
          rw [hred] at hk
          simpa using hk
        calc (kahn_batches_aux g (fuel + 1) emitted).get ⟨k + 1, hk⟩
            = (kahn_batches_aux g fuel (emitted ++ kahn_ready g emitted)).get ⟨k, hk'⟩ := by
              rw [List.get_of_eq hred]
              rfl
          _ = kahn_ready g ((emitted ++ kahn_ready g emitted) ++
                ((kahn_batches_aux g fuel (emitted ++ kahn_ready g emitted)).take k).flatten) :=
              ih _ k hk'
          _ = kahn_ready g (emitted ++
                ((kahn_batches_aux g (fuel + 1) emitted).take (k + 1)).flatten) := by
              rw [hred, List.take_succ_cons, List.flatten_cons, List.append_assoc]

lemma edges_before_append {g : DependencyGraph} {emitted ready rest : List String}
    (hready : ∀ x ∈ ready, ∀ d ∈ g.edge_targets x, d ∈ emitted)
    (hrest : ∀ (k : Nat) (hk : k < rest.length),
      ∀ d ∈ g.edge_targets (rest.get ⟨k, hk⟩), d ∈ emitted ++ ready ∨ d ∈ rest.take k) :
    ∀ (k : Nat) (hk : k < (ready ++ rest).length),
      ∀ d ∈ g.edge_targets ((ready ++ rest).get ⟨k, hk⟩),
        d ∈ emitted ∨ d ∈ (ready ++ rest).take k := by
  intro k hk d hd
  rw [List.get_eq_getElem] at hd
  by_cases hkr : k < ready.length
  · rw [List.getElem_append_left hkr] at hd
    exact Or.inl (hready _ (List.getElem_mem _) d hd)
  · push_neg at hkr
    have hk' : k - ready.length < rest.length := by
      rw [List.length_append] at hk
      omega
    rw [List.getElem_append_right hkr] at hd
    have hd' : d ∈ g.edge_targets (rest.get ⟨k - ready.length, hk'⟩) := by
      rw [List.get_eq_getElem]
      exact hd
    rcases hrest _ hk' d hd' with h | h
    · rcases List.mem_append.mp h with h' | h'
      · exact Or.inl h'
      · refine Or.inr ?_
        rw [List.take_append_eq_append_take]
        exact List.mem_append_left _ (by rwa [List.take_of_length_le hkr])
    · refine Or.inr ?_
      rw [List.take_append_eq_append_take]
      exact List.mem_append_right _ h

lemma kahn_flatten_edges_before {g : DependencyGraph} :
    ∀ (fuel : Nat) (emitted : List String) (k : Nat)
      (hk : k < (kahn_batches_aux g fuel emitted).flatten.length),
      ∀ d ∈ g.edge_targets ((kahn_batches_aux g fuel emitted).flatten.get ⟨k, hk⟩),
        d ∈ emitted ∨ d ∈ (kahn_batches_aux g fuel emitted).flatten.take k := by
  intro fuel
  induction fuel with
  | zero => intro emitted k hk; cases hk
  | succ fuel ih =>
    intro emitted k hk
    by_cases hre : (kahn_ready g emitted).isEmpty
    · exfalso
      unfold kahn_batches_aux at hk
      rw [if_pos hre] at hk
      cases hk
    · have hred : kahn_batches_aux g (fuel + 1) emitted =
          kahn_ready g emitted ::
            kahn_batches_aux g fuel (emitted ++ kahn_ready g emitted) := by
        conv_lhs => unfold kahn_batches_aux
        rw [if_neg hre]
      have hflat : (kahn_batches_aux g (fuel + 1) emitted).flatten =
          kahn_ready g emitted ++
            (kahn_batches_aux g fuel (emitted ++ kahn_ready g emitted)).flatten := by
        rw [hred, List.flatten_cons]
      -- transport the goal along hflat
      revert hk
      rw [hflat]
      intro hk
      exact edges_before_append
        (fun x hx d hd =>
          ((mem_kahn_ready g emitted x).mp hx).2.2 d hd)
        (ih (emitted ++ kahn_ready g emitted)) k hk

lemma kahn_progress (g : DependencyGraph)
    (hacyc : g.Acyclic) {emitted : List String} {k : String}
    (hk : k ∈ g.package_names) (hke : k ∉ emitted) :
    kahn_ready g emitted ≠ [] := by
  intro hempty
  have hkS : k ∈ g.package_names.filter (fun n => decide (n ∉ emitted)) :=
    List.mem_filter.mpr ⟨hk, by simpa using hke⟩
  have hstep : ∀ n ∈ g.package_names.filter (fun n => decide (n ∉ emitted)),
      ∃ d, d ∈ g.package_names.filter (fun n => decide (n ∉ emitted)) ∧
        depends_step g n d := by
    intro n hn
    rcases List.mem_filter.mp hn with ⟨hnk, hne⟩
    have hne' : n ∉ emitted := by simpa using hne
    have hnr : n ∉ kahn_ready g emitted := by
      rw [hempty]; exact List.not_mem_nil n
    rw [mem_kahn_ready] at hnr
    push_neg at hnr
    rcases hnr hnk hne' with ⟨d, hd, hdne⟩
    exact ⟨d, List.mem_filter.mpr
      ⟨DependencyGraph.target_mem_of_mem_edge_targets hd, by simpa using hdne⟩, hd⟩
  set S := g.package_names.filter (fun n => decide (n ∉ emitted)) with hS
  let f : Nat → {x // x ∈ S} := fun n =>
    Nat.rec ⟨k, hkS⟩
      (fun _ p => ⟨Classical.choose (hstep p.1 p.2),
        (Classical.choose_spec (hstep p.1 p.2)).1⟩) n
  have hfstep : ∀ n, depends_step g (f n).1 (f (n + 1)).1 := fun n =>
    (Classical.choose_spec (hstep (f n).1 (f n).2)).2
  have hmono : ∀ a b, a < b → Relation.TransGen (depends_step g) (f a).1 (f b).1 := by
    intro a b hab
    induction b with
    | zero => omega
    | succ b ihb =>
      rcases Nat.lt_succ_iff_lt_or_eq.mp hab with h | h
      · exact (ihb h).tail (hfstep b)
      · subst h; exact Relation.TransGen.single (hfstep a)
  have hnotnodup : ¬ ((List.range (S.length + 1)).map (fun i => (f i).1)).Nodup := by
    intro hnodup
    have hsub : ∀ x ∈ (List.range (S.length + 1)).map (fun i => (f i).1), x ∈ S := by
      intro x hx
      rcases List.mem_map.mp hx with ⟨i, _, rfl⟩
      exact (f i).2
    have hle := (List.Nodup.subperm hnodup hsub).length_le
    simp at hle
  rw [List.nodup_iff_injective_get] at hnotnodup
  unfold Function.Injective at hnotnodup
  push_neg at hnotnodup
  obtain ⟨a, b, hab, hne⟩ := hnotnodup
  have hget : ∀ (i : Fin ((List.range (S.length + 1)).map (fun i => (f i).1)).length),
      ((List.range (S.length + 1)).map (fun i => (f i).1)).get i = (f i.1).1 := by
    intro i
    rw [List.get_eq_getElem, List.getElem_map, List.getElem_range]
  rw [hget a, hget b] at hab
  have hvne : a.1 ≠ b.1 := fun h => hne (Fin.ext h)
  rcases Nat.lt_or_ge a.1 b.1 with h | h
  · exact hacyc (f a.1).1 (hab ▸ hmono a.1 b.1 h)
  · have h' : b.1 < a.1 := by omega
    exact hacyc (f b.1).1 (hab ▸ hmono b.1 a.1 h')

lemma countP_add_countP_not (l : List String) (q : String → Bool) :
    l.countP q + l.countP (fun x => !q x) = l.length := by
  induction l with
  | nil => rfl
  | cons a t ih =>
    rw [List.countP_cons, List.countP_cons, List.length_cons]
    cases hq : q a <;> simp [hq] <;> omega

lemma filter_length_eq_of_nodup_of_mem_iff {l₁ l₂ : List String}
    (h₁ : l₁.Nodup) (h₂ : l₂.Nodup) (h : ∀ x, x ∈ l₁ ↔ x ∈ l₂) :
    l₁.length = l₂.length :=
  Nat.le_antisymm
    ((List.Nodup.subperm h₁ (fun x hx => (h x).mp hx)).length_le)
    ((List.Nodup.subperm h₂ (fun x hx => (h x).mpr hx)).length_le)

lemma kahn_remaining_count (g : DependencyGraph) (hnd : g.package_names.Nodup)
    (emitted : List String) :
    (g.package_names.filter
        (fun n => decide (n ∉ emitted ++ kahn_ready g emitted))).length +
      (kahn_ready g emitted).length =
      (g.package_names.filter (fun n => decide (n ∉ emitted))).length := by
  set A := g.package_names.filter (fun n => decide (n ∉ emitted)) with hA
  have hAnd : A.Nodup := hnd.filter _
  -- left filter as a sub-filter of A
  have hleft : g.package_names.filter
      (fun n => decide (n ∉ emitted ++ kahn_ready g emitted)) =
      A.filter (fun n => !decide (n ∈ kahn_ready g emitted)) := by
    rw [hA, List.filter_filter]
    apply List.filter_congr
    intro x _
    by_cases hx1 : x ∈ emitted <;> by_cases hx2 : x ∈ kahn_ready g emitted <;>
      simp [hx1, hx2, List.mem_append]
  have hright : (A.filter (fun n => decide (n ∈ kahn_ready g emitted))).length =
      (kahn_ready g emitted).length := by
    apply filter_length_eq_of_nodup_of_mem_iff (hAnd.filter _) (kahn_ready_nodup hnd emitted)
    intro x
    rw [List.mem_filter]
    constructor
    · rintro ⟨_, hx⟩
      simpa using hx
    · intro hx
      rcases (mem_kahn_ready g emitted x).mp hx with ⟨h1, h2, _⟩
      exact ⟨List.mem_filter.mpr ⟨h1, by simpa using h2⟩, by simpa using hx⟩
  rw [hleft, ← hright]
  have := countP_add_countP_not A (fun n => decide (n ∈ kahn_ready g emitted))
  rw [List.countP_eq_length_filter, List.countP_eq_length_filter] at this
  omega

lemma kahn_covers (g : DependencyGraph) (hnd : g.package_names.Nodup)
    (hacyc : g.Acyclic) :
    ∀ (fuel : Nat) (emitted : List String),
      (g.package_names.filter (fun n => decide (n ∉ emitted))).length ≤ fuel →
      ∀ k ∈ g.package_names, k ∉ emitted →
        k ∈ (kahn_batches_aux g fuel emitted).flatten := by
  intro fuel
  induction fuel with
  | zero =>
    intro emitted hcnt k hk hke
    exfalso
    have hmem : k ∈ g.package_names.filter (fun n => decide (n ∉ emitted)) :=
      List.mem_filter.mpr ⟨hk, by simpa using hke⟩
    have := List.length_pos.mpr (List.ne_nil_of_mem hmem)
    omega
  | succ fuel ih =>
    intro emitted hcnt k hk hke
    have hready_ne : kahn_ready g emitted ≠ [] := kahn_progress g hacyc hk hke
    have hre : ¬ (kahn_ready g emitted).isEmpty := by
      simpa [List.isEmpty_iff] using hready_ne
    have hred : kahn_batches_aux g (fuel + 1) emitted =
        kahn_ready g emitted ::
          kahn_batches_aux g fuel (emitted ++ kahn_ready g emitted) := by
      conv_lhs => unfold kahn_batches_aux
      rw [if_neg hre]
    rw [hred, List.flatten_cons]
    by_cases hkr : k ∈ kahn_ready g emitted
    · exact List.mem_append_left _ hkr
    · refine List.mem_append_right _ (ih (emitted ++ kahn_ready g emitted) ?_ k hk ?_)
      · have hsplit := kahn_remaining_count g hnd emitted
        have hpos : 1 ≤ (kahn_ready g emitted).length :=
          List.length_pos.mpr hready_ne
        omega
      · intro hc
        rcases List.mem_append.mp hc with h | h
        · exact hke h
        · exact hkr h

lemma indexOf_lt_of_mem_take : ∀ (l : List String) (q : String) (i : Nat),
    q ∈ l.take i → l.indexOf q < i := by
  intro l
  induction l with
  | nil => intro q i h; simp at h
  | cons a t ih =>
    intro q i h
    cases i with
    | zero => simp at h
    | succ i =>
      rw [List.take_succ_cons] at h
      by_cases hqa : q = a
      · subst hqa
        rw [List.indexOf_cons_self]
        omega
      · rcases List.mem_cons.mp h with h' | h'
        · exact absurd h' hqa
        · rw [List.indexOf_cons_ne _ (Ne.symm hqa)]
          have := ih q i h'
          omega

lemma kahn_flat_spec (g : DependencyGraph) (hnd : g.package_names.Nodup)
    (hacyc : g.Acyclic) :
    (kahn_batches g).flatten.Nodup ∧
    (∀ x, x ∈ (kahn_batches g).flatten ↔ x ∈ g.package_names) ∧
    (∀ p q, q ∈ g.edge_targets p →
      (kahn_batches g).flatten.indexOf q < (kahn_batches g).flatten.indexOf p) := by
  unfold kahn_batches
  have hnodup := kahn_flatten_nodup hnd (g.package_names.length + 1) []
  have hmemf : ∀ x, x ∈ (kahn_batches_aux g (g.package_names.length + 1) []).flatten ↔
      x ∈ g.package_names := by
    intro x
    constructor
    · intro hx; exact (kahn_flatten_mem _ _ x hx).1
    · intro hx
      refine kahn_covers g hnd hacyc _ [] ?_ x hx (List.not_mem_nil x)
      have : g.package_names.filter (fun n => decide (n ∉ ([] : List String))) =
          g.package_names := by simp
      rw [this]
      omega
  refine ⟨hnodup, hmemf, ?_⟩
  intro p q hq
  have hp := (hmemf p).mpr (DependencyGraph.source_mem_of_mem_edge_targets hq)
  have hlt : (kahn_batches_aux g (g.package_names.length + 1) []).flatten.indexOf p <
      (kahn_batches_aux g (g.package_names.length + 1) []).flatten.length :=
    List.indexOf_lt_length.mpr hp
  have hget : (kahn_batches_aux g (g.package_names.length + 1) []).flatten.get ⟨_, hlt⟩ = p := by
    rw [List.get_eq_getElem]
    exact List.getElem_indexOf hlt
  rcases kahn_flatten_edges_before (g.package_names.length + 1) [] _ hlt q
      (by rw [hget]; exact hq) with h | h
  · cases h
  · exact indexOf_lt_of_mem_take _ q _ h

/-! ### Correctness of the cycle check -/

lemma mem_chains_from (step : String → List String) :
    ∀ (n : Nat) (x : String) (l : List String),
      l ∈ chains_from step n x ↔
        (l.head? = some x ∧ l.length ≤ n + 1 ∧
          List.Chain' (fun a b => b ∈ step a) l) := by
  intro n
  induction n with
  | zero =>
    intro x l
    unfold chains_from
    rw [List.mem_singleton]
    constructor
    · rintro rfl
      exact ⟨rfl, by simp, by simp⟩
    · rintro ⟨hh, hl, _⟩
      cases l with
      | nil => cases hh
      | cons a t =>
        have ha : a = x := by simpa using hh
        subst ha
        have ht : t = [] := by
          rw [List.length_cons] at hl
          exact List.length_eq_zero.mp (by omega)
        rw [ht]
  | succ n ih =>
    intro x l
    conv_lhs => unfold chains_from
    rw [List.mem_cons]
    constructor
    · rintro (rfl | h)
      · exact ⟨rfl, by simp, by simp⟩
      · rw [List.mem_flatten] at h
        obtain ⟨ls, hls, hl⟩ := h
        rw [List.mem_map] at hls
        obtain ⟨y, hy, rfl⟩ := hls
        rw [List.mem_map] at hl
        obtain ⟨l', hl', rfl⟩ := hl
        obtain ⟨hh, hlen, hch⟩ := (ih y l').mp hl'
        refine ⟨rfl, by simp only [List.length_cons] at hlen ⊢; omega, ?_⟩
        cases l' with
        | nil => cases hh
        | cons b t =>
          have hb : b = y := by simpa using hh
          subst hb
          exact List.chain'_cons.mpr ⟨hy, hch⟩
    · rintro ⟨hh, hlen, hch⟩
      cases l with
      | nil => cases hh
      | cons a t =>
        have ha : a = x := by simpa using hh
        subst ha
        cases t with
        | nil => exact Or.inl rfl
        | cons b t' =>
          right
          rw [List.mem_flatten]
          have hcc := List.chain'_cons.mp hch
          refine ⟨(chains_from step n b).map (fun l => a :: l), ?_, ?_⟩
          · exact List.mem_map.mpr ⟨b, hcc.1, rfl⟩
          · refine List.mem_map.mpr ⟨b :: t', (ih b _).mpr ⟨rfl, ?_, hcc.2⟩, rfl⟩
            simp only [List.length_cons] at hlen ⊢
            omega

lemma mem_loops_at (g : DependencyGraph) (x : String) (l : List String) :
    l ∈ loops_at g x ↔
      (l.head? = some x ∧ l.length ≤ g.package_names.length + 1 ∧
        List.Chain' (fun a b => b ∈ g.reverse_edge_targets a) l ∧
        l.getLast? = some x ∧ 2 ≤ l.length ∧ l.dropLast.Nodup) := by
  unfold loops_at
  rw [List.mem_filter, mem_chains_from]
  simp only [Bool.and_eq_true, beq_iff_eq, decide_eq_true_eq]
  tauto

lemma chain'_head_rtg {r : String → String → Prop} :
    ∀ (l : List String), List.Chain' r l → ∀ {a y : String},
      l.head? = some a → y ∈ l → Relation.ReflTransGen r a y := by
  intro l
  induction l with
  | nil => intro _ a y _ hy; cases hy
  | cons b t ih =>
    intro hch a y hh hy
    have hb : b = a := by simpa using hh
    subst hb
    rcases List.mem_cons.mp hy with rfl | hy'
    · exact Relation.ReflTransGen.refl
    · cases t with
      | nil => cases hy'
      | cons c t' =>
        have hcc := List.chain'_cons.mp hch
        exact Relation.ReflTransGen.head hcc.1 (ih hcc.2 rfl hy')

lemma chain'_rtg_last {r : String → String → Prop} :
    ∀ (l : List String), List.Chain' r l → ∀ {y b : String},
      y ∈ l → l.getLast? = some b → Relation.ReflTransGen r y b := by
  intro l
  induction l with
  | nil => intro _ y b hy _; cases hy
  | cons a t ih =>
    intro hch y b hy hlast
    cases t with
    | nil =>
      rcases List.mem_singleton.mp hy with rfl
      have hb : y = b := by simpa using hlast
      subst hb
      exact Relation.ReflTransGen.refl
    | cons c t' =>
      have hcc := List.chain'_cons.mp hch
      have hlast' : (c :: t').getLast? = some b := by
        rwa [List.getLast?_cons_cons] at hlast
      rcases List.mem_cons.mp hy with rfl | hy'
      · exact Relation.ReflTransGen.head hcc.1
          (ih hcc.2 (List.mem_cons_self _ _) hlast')
      · exact ih hcc.2 hy' hlast'

lemma revchain_swap_transGen {g : DependencyGraph} {y : String}
    (h : Relation.TransGen (fun a b => b ∈ g.reverse_edge_targets a) y y) :
    Relation.TransGen (depends_step g) y y := by
  have h' : Relation.TransGen (Function.swap (depends_step g)) y y :=
    h.mono (fun a b hab => ((g.mem_reverse_edge_targets_iff a b).mp hab).2)
  exact Relation.transGen_swap.mp h'

lemma loop_transGen {g : DependencyGraph} {l : List String} {x : String}
    (hh : l.head? = some x) (hlast : l.getLast? = some x) (hlen : 2 ≤ l.length)
    (hch : List.Chain' (fun a b => b ∈ g.reverse_edge_targets a) l) :
    ∀ y ∈ l, Relation.TransGen (depends_step g) y y := by
  have hxx : Relation.TransGen (fun a b => b ∈ g.reverse_edge_targets a) x x := by
    cases l with
    | nil => cases hh
    | cons a t =>
      have ha : a = x := by simpa using hh
      subst ha
      cases t with
      | nil => rw [List.length_cons] at hlen; simp at hlen
      | cons c t' =>
        have hcc := List.chain'_cons.mp hch
        have hlast' : (c :: t').getLast? = some a := by
          rwa [List.getLast?_cons_cons] at hlast
        exact Relation.TransGen.head' hcc.1
          (chain'_rtg_last _ hcc.2 (List.mem_cons_self _ _) hlast')
  intro y hy
  have h1 : Relation.ReflTransGen (fun a b => b ∈ g.reverse_edge_targets a) x y :=
    chain'_head_rtg _ hch hh hy
  have h2 : Relation.ReflTransGen (fun a b => b ∈ g.reverse_edge_targets a) y x :=
    chain'_rtg_last _ hch hy hlast
  exact revchain_swap_transGen
    (Relation.TransGen.trans_right h2 (Relation.TransGen.trans_left hxx h1))

lemma find_cycle_model_spec {g : DependencyGraph} {c : List String}
    (h : find_cycle_model g = some c) :
    ∃ x, c.head? = some x ∧ c.getLast? = some x ∧ 2 ≤ c.length ∧
      c.dropLast.Nodup ∧
      List.Chain' (fun a b => b ∈ g.reverse_edge_targets a) c := by
  unfold find_cycle_model at h
  obtain ⟨x, _, hfx⟩ := List.exists_of_findSome?_eq_some h
  have hc : c ∈ loops_at g x := by
    cases hl : loops_at g x with
    | nil => rw [hl] at hfx; cases hfx
    | cons a t =>
      rw [hl] at hfx
      have : a = c := by simpa using hfx
      subst this
      exact List.mem_cons_self _ _
  rw [mem_loops_at] at hc
  exact ⟨x, hc.1, hc.2.2.2.1, hc.2.2.2.2.1, hc.2.2.2.2.2, hc.2.2.1⟩

lemma not_acyclic_of_find_cycle_some {g : DependencyGraph} {c : List String}
    (h : find_cycle_model g = some c) : ¬ g.Acyclic := by
  obtain ⟨x, hh, hlast, hlen, _, hch⟩ := find_cycle_model_spec h
  intro hacyc
  have hx : x ∈ c := by
    cases c with
    | nil => cases hh
    | cons a t =>
      have : a = x := by simpa using hh
      subst this
      exact List.mem_cons_self _ _
  exact hacyc x (loop_transGen hh hlast hlen hch x hx)

lemma chain_mem_names {g : DependencyGraph} : ∀ (m : List String) (b : String),
    List.Chain (depends_step g) b m → ∀ y ∈ m, y ∈ g.package_names := by
  intro m
  induction m with
  | nil => intro b _ y hy; cases hy
  | cons c t ih =>
    intro b hch y hy
    rcases List.chain_cons.mp hch with ⟨hbc, hct⟩
    rcases List.mem_cons.mp hy with rfl | hy'
    · exact DependencyGraph.target_mem_of_mem_edge_targets hbc
    · exact ih c hct y hy'

lemma exists_loop_list_of_transGen {g : DependencyGraph} {x : String}
    (h : Relation.TransGen (depends_step g) x x) :
    ∃ l : List String, l.head? = some x ∧ l.getLast? = some x ∧ 2 ≤ l.length ∧
      List.Chain' (depends_step g) l ∧ ∀ y ∈ l, y ∈ g.package_names := by
  rcases Relation.TransGen.head'_iff.mp h with ⟨b, hxb, hrtg⟩
  obtain ⟨m, hchain, hlast⟩ := List.exists_chain_of_relationReflTransGen hrtg
  refine ⟨x :: b :: m, rfl, ?_, by simp, ?_, ?_⟩
  · rw [List.getLast?_cons_cons, List.getLast?_eq_getLast (b :: m) (by simp)]
    exact congrArg some hlast
  · exact List.chain'_cons.mpr ⟨hxb, hchain⟩
  · intro y hy
    rcases List.mem_cons.mp hy with rfl | hy'
    · exact DependencyGraph.source_mem_of_mem_edge_targets hxb
    · rcases List.mem_cons.mp hy' with rfl | hy''
      · exact DependencyGraph.target_mem_of_mem_edge_targets hxb
      · exact chain_mem_names m b hchain y hy''

lemma not_nodup_decomp : ∀ {l : List String}, ¬ l.Nodup →
    ∃ a l₁ l₂ l₃, l = l₁ ++ a :: l₂ ++ a :: l₃ := by
  intro l
  induction l with
  | nil => intro h; exact absurd List.nodup_nil h
  | cons u t ih =>
    intro h
    by_cases hu : u ∈ t
    · obtain ⟨s, t', rfl⟩ := List.append_of_mem hu
      exact ⟨u, [], s, t', rfl⟩
    · have ht : ¬ t.Nodup := fun hnd => h (List.nodup_cons.mpr ⟨hu, hnd⟩)
      obtain ⟨a, l₁, l₂, l₃, rfl⟩ := ih ht
      exact ⟨a, u :: l₁, l₂, l₃, rfl⟩

lemma exists_simple_loop {g : DependencyGraph} :
    ∀ (n : Nat) (l : List String) (x : String), l.length ≤ n →
      l.head? = some x → l.getLast? = some x → 2 ≤ l.length →
      List.Chain' (depends_step g) l → (∀ y ∈ l, y ∈ g.package_names) →
      ∃ (m : List String) (y : String),
        m.head? = some y ∧ m.getLast? = some y ∧ 2 ≤ m.length ∧
        List.Chain' (depends_step g) m ∧ (∀ z ∈ m, z ∈ g.package_names) ∧
        m.dropLast.Nodup ∧ m.length ≤ g.package_names.length + 1 := by
  intro n
  induction n with
  | zero => intro l x hn _ _ hlen _ _; omega
  | succ n ih =>
    intro l x hn hh hlast hlen hch hmem
    by_cases hnd : l.dropLast.Nodup
    · refine ⟨l, x, hh, hlast, hlen, hch, hmem, hnd, ?_⟩
      have hsub : ∀ z ∈ l.dropLast, z ∈ g.package_names := fun z hz =>
        hmem z ((List.dropLast_sublist l).subset hz)
      have hle := (List.Nodup.subperm hnd hsub).length_le
      have hdl : l.dropLast.length = l.length - 1 := List.length_dropLast l
      omega
    · have hne : l ≠ [] := by
        intro h
        rw [h] at hlen
        simp at hlen
      have hgl : l.getLast hne = x := by
        have hq := List.getLast?_eq_getLast l hne
        rw [hq] at hlast
        exact Option.some_inj.mp hlast
      have hsplit : l.dropLast ++ [x] = l := by
        conv_rhs => rw [← List.dropLast_append_getLast hne]
        rw [hgl]
      obtain ⟨a, l₁, l₂, l₃, hdec⟩ := not_nodup_decomp hnd
      have hlform : l = l₁ ++ (a :: l₂ ++ [a]) ++ (l₃ ++ [x]) := by
        rw [← hsplit, hdec]
        simp
      have hchm : List.Chain' (depends_step g) (a :: l₂ ++ [a]) :=
        (List.chain'_append.mp (List.chain'_append.mp (hlform ▸ hch)).1).2.1
      have hlt : (a :: l₂ ++ [a]).length < l.length := by
        rw [hlform]
        simp only [List.length_append, List.length_cons]
        omega
      refine ih (a :: l₂ ++ [a]) a ?_ rfl ?_ ?_ hchm ?_
      · omega
      · exact List.getLast?_concat _
      · simp only [List.length_cons, List.length_append]
        omega
      · intro z hz
        apply hmem
        rw [hlform]
        exact List.mem_append.mpr (Or.inl (List.mem_append.mpr (Or.inr hz)))

lemma findSome?_isSome_of_mem {α β : Type _} {l : List α} {f : α → Option β} {x : α}
    (hx : x ∈ l) (hfx : (f x).isSome) : (l.findSome? f).isSome := by
  induction l with
  | nil => cases hx
  | cons a t ih =>
    rw [List.findSome?_cons]
    cases hfa : f a with
    | some b => rfl
    | none =>
      rcases List.mem_cons.mp hx with rfl | hx'
      · rw [hfa] at hfx; cases hfx
      · exact ih hx'

lemma reverse_dropLast_eq (l : List String) : l.reverse.dropLast = l.tail.reverse := by
  cases l with
  | nil => rfl
  | cons a t => rw [List.reverse_cons, List.dropLast_concat, List.tail_cons]

lemma find_cycle_model_isSome_of_cyclic {g : DependencyGraph}
    (h : ∃ x, Relation.TransGen (depends_step g) x x) :
    (find_cycle_model g).isSome := by
  obtain ⟨x, hx⟩ := h
  obtain ⟨l, hh, hl, hlen2, hch, hmem⟩ := exists_loop_list_of_transGen hx
  obtain ⟨m, y, mh, ml, mlen, mch, mmem, mnodup, mbound⟩ :=
    exists_simple_loop l.length l x le_rfl hh hl hlen2 hch hmem
  have htail_nodup : m.tail.Nodup := by
    cases m with
    | nil => cases mh
    | cons y0 t =>
      have hy0 : y0 = y := by simpa using mh
      rw [← hy0] at ml
      have ht_ne : t ≠ [] := by
        intro hh0
        subst hh0
        simp at mlen
      have hgt : t.getLast ht_ne = y0 := by
        cases t with
        | nil => exact absurd rfl ht_ne
        | cons c t' =>
          rw [List.getLast?_cons_cons, List.getLast?_eq_getLast _ (by simp)] at ml
          exact Option.some_inj.mp ml
      have hmidsplit : t.dropLast ++ [y0] = t := by
        conv_rhs => rw [← List.dropLast_append_getLast ht_ne]
        rw [hgt]
      have hdl : (y0 :: t).dropLast = y0 :: t.dropLast := by
        conv_lhs => rw [← hmidsplit, ← List.cons_append, List.dropLast_concat]
      rw [hdl] at mnodup
      rw [List.tail_cons, ← hmidsplit, List.nodup_middle]
      simpa using mnodup
  have hy_names : y ∈ g.package_names := by
    apply mmem
    cases m with
    | nil => cases mh
    | cons y0 t =>
      have hy0 : y0 = y := by simpa using mh
      rw [← hy0]
      exact List.mem_cons_self _ _
  have hrloop : m.reverse ∈ loops_at g y := by
    rw [mem_loops_at]
    refine ⟨?_, ?_, ?_, ?_, ?_, ?_⟩
    · rw [List.head?_reverse]; exact ml
    · rw [List.length_reverse]; exact mbound
    · rw [List.chain'_reverse]
      refine List.Chain'.imp ?_ mch
      intro a b hab
      exact (g.mem_reverse_edge_targets_iff b a).mpr
        ⟨DependencyGraph.source_mem_of_mem_edge_targets hab, hab⟩
    · rw [List.getLast?_reverse]; exact mh
    · rw [List.length_reverse]; exact mlen
    · rw [reverse_dropLast_eq, List.nodup_reverse]; exact htail_nodup
  unfold find_cycle_model
  apply findSome?_isSome_of_mem hy_names
  cases hl0 : loops_at g y with
  | nil => rw [hl0] at hrloop; cases hrloop
  | cons a t => rfl

lemma find_cycle_model_eq_none_iff (g : DependencyGraph) :
    find_cycle_model g = none ↔ g.Acyclic := by
  constructor
  · intro h x hx
    have hs := find_cycle_model_isSome_of_cyclic ⟨x, hx⟩
    rw [h] at hs
    cases hs
  · intro hacyc
    cases hf : find_cycle_model g with
    | none => rfl
    | some c => exact absurd hacyc (not_acyclic_of_find_cycle_some hf)

/-! ### Claims about the ordering operations -/

/-- C1: For every acyclic snapshot, `topological_order()` succeeds, yields
every package of the snapshot exactly once (the yielded names are a
permutation of the snapshot names), and for every edge "p depends on q" the
package `q` is yielded strictly before `p`. -/
theorem claim_C1 (g : DependencyGraph) (hnd : g.package_names.Nodup)
    (hwn : g.well_named) (hacyc : g.Acyclic) :
    ∃ pkgs : List Package, g.topological_order = .ok pkgs ∧
      (pkgs.map Package.name).Perm g.package_names ∧
      ∀ p q, q ∈ g.edge_targets p →
        (pkgs.map Package.name).indexOf q < (pkgs.map Package.name).indexOf p := by
  obtain ⟨hnodup, hmemf, horder⟩ := kahn_flat_spec g hnd hacyc
  have hfind : find_cycle_model g = none := (find_cycle_model_eq_none_iff g).mpr hacyc
  have hsub : ∀ d ∈ (kahn_batches g).flatten, d ∈ g.package_names :=
    fun d hd => (hmemf d).mp hd
  refine ⟨g.lookup_packages (kahn_batches g).flatten, ?_, ?_, ?_⟩
  · unfold DependencyGraph.topological_order
    rw [hfind]
  · rw [DependencyGraph.lookup_packages_names_of_subset hwn hsub]
    exact List.Subperm.antisymm
      (List.Nodup.subperm hnodup (fun x hx => (hmemf x).mp hx))
      (List.Nodup.subperm hnd (fun x hx => (hmemf x).mpr hx))
  · rw [DependencyGraph.lookup_packages_names_of_subset hwn hsub]
    exact horder

/-- Witness for C1 at the concrete chain snapshot. -/
theorem claim_C1_witness :
    chain_graph.package_names.Nodup ∧ chain_graph.well_named ∧
    chain_graph.Acyclic ∧
    (∃ pkgs : List Package, chain_graph.topological_order = .ok pkgs ∧
      (pkgs.map Package.name).Perm chain_graph.package_names ∧
      ∀ p q, q ∈ chain_graph.edge_targets p →
        (pkgs.map Package.name).indexOf q < (pkgs.map Package.name).indexOf p) :=
  ⟨by decide, by decide, (find_cycle_model_eq_none_iff chain_graph).mp (by decide),
   claim_C1 chain_graph (by decide) (by decide)
     ((find_cycle_model_eq_none_iff chain_graph).mp (by decide))⟩

/-- C2: For every acyclic snapshot, `parallel_batches()` succeeds; batch `k`
contains exactly the not-yet-yielded packages all of whose dependencies lie in
batches `0..k-1`; and the concatenation of all batches is a valid topological
order of the snapshot (every package exactly once, dependencies first). -/
theorem claim_C2 (g : DependencyGraph) (hnd : g.package_names.Nodup)
    (hwn : g.well_named) (hacyc : g.Acyclic) :
    ∃ (bs : List (List Package)) (nbs : List (List String)),
      g.parallel_batches = .ok bs ∧
      nbs = bs.map (fun b => b.map Package.name) ∧
      nbs.flatten.Perm g.package_names ∧
      (∀ p q, q ∈ g.edge_targets p →
        nbs.flatten.indexOf q < nbs.flatten.indexOf p) ∧
      ∀ (k : Nat) (hk : k < nbs.length) (n : String),
        n ∈ nbs.get ⟨k, hk⟩ ↔
          (n ∈ g.package_names ∧ n ∉ (nbs.take k).flatten ∧
            ∀ d ∈ g.edge_targets n, d ∈ (nbs.take k).flatten) := by
  obtain ⟨hnodup, hmemf, horder⟩ := kahn_flat_spec g hnd hacyc
  have hfind : find_cycle_model g = none := (find_cycle_model_eq_none_iff g).mpr hacyc
  have hbatch_sub : ∀ b ∈ kahn_batches g, ∀ d ∈ b, d ∈ g.package_names := by
    intro b hb d hd
    exact (hmemf d).mp (List.mem_flatten.mpr ⟨b, hb, hd⟩)
  have hback : ((kahn_batches g).map (fun b => g.lookup_packages b)).map
      (fun b => b.map Package.name) = kahn_batches g := by
    rw [List.map_map]
    have : ∀ b ∈ kahn_batches g,
        ((fun b => b.map Package.name) ∘ fun b => g.lookup_packages b) b = id b := by
      intro b hb
      simp only [Function.comp_apply, id_eq]
      exact DependencyGraph.lookup_packages_names_of_subset hwn (hbatch_sub b hb)
    rw [List.map_congr_left this, List.map_id]
  refine ⟨(kahn_batches g).map (fun b => g.lookup_packages b), kahn_batches g, ?_, hback.symm,
    ?_, ?_, ?_⟩
  · unfold DependencyGraph.parallel_batches
    rw [hfind]
  · exact List.Subperm.antisymm
      (List.Nodup.subperm hnodup (fun x hx => (hmemf x).mp hx))
      (List.Nodup.subperm hnd (fun x hx => (hmemf x).mpr hx))
  · exact horder
  · intro k hk n
    unfold kahn_batches at hk ⊢
    rw [kahn_batches_aux_get _ _ k hk, mem_kahn_ready, List.nil_append]

/-- Witness for C2 at the concrete chain snapshot. -/
theorem claim_C2_witness :
    chain_graph.package_names.Nodup ∧ chain_graph.well_named ∧
    chain_graph.Acyclic ∧
    (∃ (bs : List (List Package)) (nbs : List (List String)),
      chain_graph.parallel_batches = .ok bs ∧
      nbs = bs.map (fun b => b.map Package.name) ∧
      nbs.flatten.Perm chain_graph.package_names ∧
      (∀ p q, q ∈ chain_graph.edge_targets p →
        nbs.flatten.indexOf q < nbs.flatten.indexOf p) ∧
      ∀ (k : Nat) (hk : k < nbs.length) (n : String),
        n ∈ nbs.get ⟨k, hk⟩ ↔
          (n ∈ chain_graph.package_names ∧ n ∉ (nbs.take k).flatten ∧
            ∀ d ∈ chain_graph.edge_targets n, d ∈ (nbs.take k).flatten)) :=
  ⟨by decide, by decide, (find_cycle_model_eq_none_iff chain_graph).mp (by decide),
   claim_C2 chain_graph (by decide) (by decide)
     ((find_cycle_model_eq_none_iff chain_graph).mp (by decide))⟩

/-- C3: For every snapshot whose edge set contains a cycle, both
`topological_order()` and `parallel_batches()` fail with a cyclic-dependency
error; in the generator embedding the failure is the whole result, so no
element is yielded before it (nothing is silently omitted). -/
theorem claim_C3 (g : DependencyGraph)
    (hcyc : ∃ x, Relation.TransGen (depends_step g) x x) :
    (∃ c, g.topological_order = .error (.cyclicDependency c)) ∧
    (∃ c, g.parallel_batches = .error (.cyclicDependency c)) := by
  obtain ⟨c, hc⟩ := Option.isSome_iff_exists.mp (find_cycle_model_isSome_of_cyclic hcyc)
  unfold DependencyGraph.topological_order DependencyGraph.parallel_batches
  rw [hc]
  exact ⟨⟨c, rfl⟩, ⟨c, rfl⟩⟩

/-- Witness for C3 at the concrete two-package cycle snapshot. -/
theorem claim_C3_witness :
    (∃ x, Relation.TransGen (depends_step cycle_graph) x x) ∧
    ((∃ c, cycle_graph.topological_order = .error (.cyclicDependency c)) ∧
     (∃ c, cycle_graph.parallel_batches = .error (.cyclicDependency c))) :=
  ⟨⟨"pkg-a", Relation.TransGen.head
      (show depends_step cycle_graph "pkg-a" "pkg-b" from by decide)
      (Relation.TransGen.single
        (show depends_step cycle_graph "pkg-b" "pkg-a" from by decide))⟩,
   claim_C3 cycle_graph
     ⟨"pkg-a", Relation.TransGen.head
        (show depends_step cycle_graph "pkg-a" "pkg-b" from by decide)
        (Relation.TransGen.single
          (show depends_step cycle_graph "pkg-b" "pkg-a" from by decide))⟩⟩

/-- C4: Whenever `topological_order()` or `parallel_batches()` fails with a
cyclic-dependency error, the error carries the offending cycle as an ordered
list of names forming the loop: it has at least one edge, its first and last
names coincide, each consecutive pair is a dependency edge (each name is an
immediate predecessor of the next), no name repeats before the loop closes,
and every listed name really lies on a cycle of the snapshot. -/
theorem claim_C4 (g : DependencyGraph) (c : List String)
    (h : g.topological_order = .error (.cyclicDependency c) ∨
      g.parallel_batches = .error (.cyclicDependency c)) :
    2 ≤ c.length ∧ c.head? = c.getLast? ∧
    List.Chain' (fun a b => a ∈ g.edge_targets b) c ∧
    c.dropLast.Nodup ∧
    ∀ y ∈ c, y ∈ g.package_names ∧ Relation.TransGen (depends_step g) y y := by
  have hfind : find_cycle_model g = some c := by
    rcases h with h | h
    · unfold DependencyGraph.topological_order at h
      cases hf : find_cycle_model g with
      | none => rw [hf] at h; cases h
      | some c' =>
        rw [hf] at h
        simp only [Except.error.injEq, PyMelosError.cyclicDependency.injEq] at h
        rw [← h]
    · unfold DependencyGraph.parallel_batches at h
      cases hf : find_cycle_model g with
      | none => rw [hf] at h; cases h
      | some c' =>
        rw [hf] at h
        simp only [Except.error.injEq, PyMelosError.cyclicDependency.injEq] at h
        rw [← h]
  obtain ⟨x, hh, hlast, hlen, hnodup, hch⟩ := find_cycle_model_spec hfind
  have htg := loop_transGen hh hlast hlen hch
  refine ⟨hlen, by rw [hh, hlast], ?_, hnodup, ?_⟩
  · exact List.Chain'.imp
      (fun a b hab => ((g.mem_reverse_edge_targets_iff a b).mp hab).2) hch
  · intro y hy
    exact ⟨target_mem_of_transGen (htg y hy), htg y hy⟩

/-- Witness for C4 at the concrete two-package cycle snapshot. -/
theorem claim_C4_witness :
    (cycle_graph.topological_order =
        .error (.cyclicDependency ["pkg-a", "pkg-b", "pkg-a"]) ∨
      cycle_graph.parallel_batches =
        .error (.cyclicDependency ["pkg-a", "pkg-b", "pkg-a"])) ∧
    (2 ≤ (["pkg-a", "pkg-b", "pkg-a"] : List String).length ∧
      (["pkg-a", "pkg-b", "pkg-a"] : List String).head? =
        (["pkg-a", "pkg-b", "pkg-a"] : List String).getLast? ∧
      List.Chain' (fun a b => a ∈ cycle_graph.edge_targets b)
        ["pkg-a", "pkg-b", "pkg-a"] ∧
      (["pkg-a", "pkg-b", "pkg-a"] : List String).dropLast.Nodup ∧
      ∀ y ∈ (["pkg-a", "pkg-b", "pkg-a"] : List String),
        y ∈ cycle_graph.package_names ∧
          Relation.TransGen (depends_step cycle_graph) y y) :=
  ⟨Or.inl (by decide),
   claim_C4 cycle_graph ["pkg-a", "pkg-b", "pkg-a"] (Or.inl (by decide))⟩
